import Mathlib

/-!
Verification of the compiler-facing type oracle (ciKlass hierarchy queries)
and the ZGC locking primitives (zLock.inline.hpp).

The ciKlass operations (`is_subtype_of`, `is_subclass_of`, `super_depth`,
`super_check_offset`, `super_of_depth`, `least_common_ancestor`,
`find_klass`, `modifier_flags`, `access_flags`) are embedded from
src/unnamed/part_000.  The VM-side Klass machinery they call through the
wall (primary supertype display, secondary supertype set, check-slot
offset, the LCA walk) is not part of this repository's files, so it is
modelled from the spec (doc comments on those definitions say so).
-/

namespace TypeOracle

/-- Modelled from the spec: the fixed capacity of the primary supertype
display ("fixed-capacity ordered list of ancestor types"). -/
def primaryLimit : Nat := 8

/-- Modelled from the spec: the heap-resident class-hierarchy metadata the
oracle reads through the wall.  Types are numbered; `parent i` is the
single-inheritance class parent (the root is type `0`, its own parent);
`ifaces i` is the transitive interface set of `i`.  The structural fields
record the spec's single-inheritance invariants: the hierarchy is acyclic
("primary supertype displays are acyclic by the single-inheritance
invariant"), class parents are classes ("interfaces are not class
ancestors"), and the secondary/interface set holds interfaces. -/
structure Hier where
  parent : Nat → Nat
  isIface : Nat → Bool
  ifaces : Nat → List Nat
  parent_lt : ∀ i, i ≠ 0 → parent i < i
  parent_class : ∀ i, isIface (parent i) = false
  root_class : isIface 0 = false
  ifaces_are_ifaces : ∀ i j, j ∈ ifaces i → isIface j = true

/-- Fuelled ascent of the parent chain; `parent_lt` makes fuel `i + 1`
always sufficient for type `i`. -/
def Hier.chainUpGo (h : Hier) : Nat → Nat → List Nat
  | 0, _ => []
  | f + 1, i => if i = 0 then [0] else i :: h.chainUpGo f (h.parent i)

/-- The single-inheritance class chain of `i`, from `i` itself up to the
root: `[i, parent i, parent (parent i), ..., 0]`. -/
def Hier.chainUp (h : Hier) (i : Nat) : List Nat :=
  h.chainUpGo (i + 1) i

theorem Hier.chainUpGo_eq_of_lt (h : Hier) :
    ∀ f f' i, i < f → i < f' → h.chainUpGo f i = h.chainUpGo f' i := by
  intro f
  induction f with
  | zero => intro f' i hif _; exact absurd hif (Nat.not_lt_zero i)
  | succ f ih =>
    intro f' i hif hif'
    cases f' with
    | zero => exact absurd hif' (Nat.not_lt_zero i)
    | succ f' =>
      show (if i = 0 then [0] else i :: h.chainUpGo f (h.parent i)) =
        (if i = 0 then [0] else i :: h.chainUpGo f' (h.parent i))
      by_cases hi : i = 0
      · rw [if_pos hi, if_pos hi]
      · rw [if_neg hi, if_neg hi]
        have hp := h.parent_lt i hi
        rw [ih f' (h.parent i) (by omega) (by omega)]

theorem Hier.chainUp_zero (h : Hier) : h.chainUp 0 = [0] := rfl

theorem Hier.chainUp_pos (h : Hier) (i : Nat) (hi : i ≠ 0) :
    h.chainUp i = i :: h.chainUp (h.parent i) := by
  show (if i = 0 then [0] else i :: h.chainUpGo i (h.parent i)) = _
  rw [if_neg hi]
  unfold chainUp
  rw [h.chainUpGo_eq_of_lt i (h.parent i + 1) (h.parent i)
    (h.parent_lt i hi) (Nat.lt_succ_self _)]

theorem Hier.chainUp_ne_nil (h : Hier) (i : Nat) : h.chainUp i ≠ [] := by
  by_cases hi : i = 0
  · subst hi; rw [h.chainUp_zero]; simp
  · rw [h.chainUp_pos i hi]; simp

theorem Hier.head_chainUp (h : Hier) (i : Nat) :
    (h.chainUp i).head? = some i := by
  by_cases hi : i = 0
  · subst hi; rw [h.chainUp_zero]; rfl
  · rw [h.chainUp_pos i hi]; rfl

theorem Hier.mem_chainUp_self (h : Hier) (i : Nat) : i ∈ h.chainUp i := by
  by_cases hi : i = 0
  · subst hi; rw [h.chainUp_zero]; simp
  · rw [h.chainUp_pos i hi]; simp

/-- Number of proper ancestors of `i` along the class chain. -/
def Hier.depth (h : Hier) (i : Nat) : Nat := (h.chainUp i).length - 1

theorem Hier.length_chainUp (h : Hier) (i : Nat) :
    (h.chainUp i).length = h.depth i + 1 := by
  have := h.chainUp_ne_nil i
  have hlen : (h.chainUp i).length ≠ 0 := by
    simpa [List.length_eq_zero] using this
  unfold depth
  omega

/-- The primary chain written from the root down to and including `i`
(the spec's display order, with `i` itself appended at the end). -/
def Hier.primariesDown (h : Hier) (i : Nat) : List Nat :=
  (h.chainUp i).reverse

/-- Modelled from the spec: the primary supertype display of `i` is the
"fixed-capacity ordered list of ancestor types from the root down to (not
including) `this`"; ancestors past the capacity spill into the secondary
set. -/
def Hier.display (h : Hier) (i : Nat) : List Nat :=
  ((h.chainUp i).tail).reverse.take primaryLimit

/-- Proper ancestors of `i` from the root down (the display before the
capacity cut). -/
def Hier.ancRootDown (h : Hier) (i : Nat) : List Nat :=
  ((h.chainUp i).tail).reverse

theorem Hier.primariesDown_eq_append (h : Hier) (i : Nat) :
    h.primariesDown i = h.ancRootDown i ++ [i] := by
  unfold primariesDown ancRootDown
  by_cases hi : i = 0
  · subst hi; rw [h.chainUp_zero]; rfl
  · rw [h.chainUp_pos i hi]; simp

/-- Modelled from the spec: `eligibleAsPrimarySuper` — a type participates
in the O(1) display check iff it is a class whose chain fits the display
("interfaces and deep hierarchies past display capacity" are ineligible). -/
def Hier.canBePrimary (h : Hier) (i : Nat) : Bool :=
  !h.isIface i && decide (h.depth i < primaryLimit)

/-- Modelled from the spec: the check-slot offset the code generator embeds
("an integer `checkSlotOffset` identifying where in the display a fast
check compares"); for an ineligible type it is the sentinel slot just past
the display (the secondary-set cache position). -/
def Hier.superCheckOffset (h : Hier) (i : Nat) : Nat :=
  if h.canBePrimary i then h.depth i else primaryLimit

/-- Modelled from the spec: the secondary supertype set — "types whose
ancestor chain exceeds the fixed display capacity spill the excess
ancestors into an unordered secondary supertype set", alongside the
transitive interfaces. -/
def Hier.secondaries (h : Hier) (i : Nat) : List Nat :=
  (h.ancRootDown i).drop primaryLimit ++ h.ifaces i

/-- Modelled from the spec: the VM-side fast/slow subtype check — "compare
the ancestor recorded at `B.checkSlotOffset` within `A`'s primary
supertype display against `B`'s identity.  A match returns true in O(1).
A miss on a type that is `eligibleAsPrimarySuper` is conclusive (false).
A miss on a type that is NOT `eligibleAsPrimarySuper` requires scanning
`A`'s secondary supertype set for `B`." -/
def Hier.ksub (h : Hier) (a b : Nat) : Bool :=
  if (h.display a)[h.superCheckOffset b]? = some b then true
  else if h.superCheckOffset b ≠ primaryLimit then false
  else decide (b ∈ h.secondaries a)

/-- Modelled from the spec: the VM-side subclass test "walks `A`'s chain of
class ancestors (not its full transitive type set) comparing identities". -/
def Hier.ksubclass (h : Hier) (a b : Nat) : Bool :=
  decide (b ∈ h.chainUp a)

/-- The reference brute-force "full ancestor set" of a type: itself, its
class-chain ancestors and its transitive interfaces. -/
def Hier.ancSet (h : Hier) (a : Nat) : List Nat :=
  h.chainUp a ++ h.ifaces a

/-- The reference brute-force membership subtype test the spec asks fast
and slow paths to agree with. -/
def Hier.bruteSubtype (h : Hier) (a b : Nat) : Bool :=
  decide (b ∈ h.ancSet a)

theorem Hier.chainUp_suffix (h : Hier) (i : Nat) :
    ∀ j, j ∈ h.chainUp i → h.chainUp j <:+ h.chainUp i := by
  induction i using Nat.strong_induction_on with
  | _ i ih =>
    intro j hj
    by_cases hi : i = 0
    · subst hi
      rw [h.chainUp_zero] at hj ⊢
      simp only [List.mem_singleton] at hj
      subst hj
      rw [h.chainUp_zero]
    · rw [h.chainUp_pos i hi] at hj ⊢
      rcases List.mem_cons.mp hj with rfl | hj'
      · rw [← h.chainUp_pos j hi]
      · exact (ih (h.parent i) (h.parent_lt i hi) j hj').trans (List.suffix_cons i _)

theorem Hier.chainUp_descending (h : Hier) (i : Nat) :
    List.Chain' (· > ·) (h.chainUp i) := by
  induction i using Nat.strong_induction_on with
  | _ i ih =>
    by_cases hi : i = 0
    · subst hi; rw [h.chainUp_zero]; simp
    · rw [h.chainUp_pos i hi]
      refine List.Chain'.cons' (ih (h.parent i) (h.parent_lt i hi)) ?_
      intro y hy
      rw [h.head_chainUp (h.parent i)] at hy
      simp only [Option.mem_def, Option.some.injEq] at hy
      subst hy
      exact h.parent_lt i hi

theorem Hier.chainUp_nodup (h : Hier) (i : Nat) : (h.chainUp i).Nodup := by
  have hp : List.Pairwise (· > ·) (h.chainUp i) :=
    List.chain'_iff_pairwise.mp (h.chainUp_descending i)
  exact hp.imp (fun hgt => Nat.ne_of_gt hgt)

theorem Hier.mem_chainUp_class (h : Hier) (i : Nat) :
    ∀ j, j ∈ h.chainUp i → j = i ∨ h.isIface j = false := by
  induction i using Nat.strong_induction_on with
  | _ i ih =>
    intro j hj
    by_cases hi : i = 0
    · subst hi
      rw [h.chainUp_zero] at hj
      simp only [List.mem_singleton] at hj
      exact Or.inl hj
    · rw [h.chainUp_pos i hi] at hj
      rcases List.mem_cons.mp hj with rfl | hj'
      · exact Or.inl rfl
      · rcases ih (h.parent i) (h.parent_lt i hi) j hj' with rfl | hcl
        · exact Or.inr (h.parent_class i)
        · exact Or.inr hcl

theorem Hier.primariesDown_ofChainMem (h : Hier) {i j : Nat} (hj : j ∈ h.chainUp i) :
    h.primariesDown j <+: h.primariesDown i := by
  unfold primariesDown
  exact List.reverse_prefix.mpr (h.chainUp_suffix i j hj)

theorem Hier.length_primariesDown (h : Hier) (i : Nat) :
    (h.primariesDown i).length = h.depth i + 1 := by
  unfold primariesDown
  rw [List.length_reverse, h.length_chainUp]

theorem Hier.length_ancRootDown (h : Hier) (i : Nat) :
    (h.ancRootDown i).length = h.depth i := by
  have := h.length_primariesDown i
  rw [h.primariesDown_eq_append] at this
  simp only [List.length_append, List.length_singleton] at this
  omega

theorem Hier.primariesDown_getElem_self (h : Hier) (i : Nat) :
    (h.primariesDown i)[h.depth i]? = some i := by
  unfold primariesDown
  have hlt : h.depth i < (h.chainUp i).length := by
    rw [h.length_chainUp]; omega
  rw [List.getElem?_reverse hlt]
  rw [h.length_chainUp]
  have : h.depth i + 1 - 1 - h.depth i = 0 := by omega
  rw [this, ← List.head?_eq_getElem?, h.head_chainUp]

theorem Hier.primariesDown_getElem_of_mem (h : Hier) {i j : Nat}
    (hj : j ∈ h.chainUp i) : (h.primariesDown i)[h.depth j]? = some j := by
  have hpre := h.primariesDown_ofChainMem hj
  have hlt : h.depth j < (h.primariesDown j).length := by
    rw [h.length_primariesDown]; omega
  have := hpre.getElem hlt
  have hlt2 : h.depth j < (h.primariesDown i).length :=
    Nat.lt_of_lt_of_le hlt hpre.length_le
  rw [List.getElem?_eq_getElem hlt2, ← this]
  rw [← List.getElem?_eq_getElem hlt]
  exact h.primariesDown_getElem_self j

theorem Hier.depth_eq_of_getElem (h : Hier) {i j : Nat} {k : Nat}
    (hk : (h.primariesDown i)[k]? = some j) : h.depth j = k := by
  have hjmem : j ∈ h.primariesDown i := List.getElem?_mem hk
  have hjch : j ∈ h.chainUp i := by
    unfold primariesDown at hjmem
    exact List.mem_reverse.mp hjmem
  have hd := h.primariesDown_getElem_of_mem hjch
  have hnd : (h.primariesDown i).Nodup := by
    unfold primariesDown
    exact List.nodup_reverse.mpr (h.chainUp_nodup i)
  have hklt : k < (h.primariesDown i).length := by
    by_contra hge
    rw [List.getElem?_eq_none (Nat.le_of_not_lt hge)] at hk
    exact Option.noConfusion hk
  exact (List.getElem?_inj hklt hnd (hk.trans hd.symm)).symm

theorem Hier.depth_lt_of_mem_proper (h : Hier) {i j : Nat}
    (hj : j ∈ h.chainUp i) (hne : j ≠ i) : h.depth j < h.depth i := by
  have hpre := h.primariesDown_ofChainMem hj
  have hlen := hpre.length_le
  rw [h.length_primariesDown, h.length_primariesDown] at hlen
  rcases Nat.lt_or_ge (h.depth j) (h.depth i) with hlt | hge
  · exact hlt
  · exfalso
    have heq : h.depth j = h.depth i := by omega
    have : h.primariesDown j = h.primariesDown i := by
      apply hpre.eq_of_length
      rw [h.length_primariesDown, h.length_primariesDown, heq]
    have h1 := h.primariesDown_getElem_self j
    have h2 := h.primariesDown_getElem_self i
    rw [this, heq, h2] at h1
    exact hne (Option.some.injEq _ _ ▸ h1.symm ▸ rfl)

theorem Hier.ancRootDown_getElem_of_mem (h : Hier) {i j : Nat}
    (hj : j ∈ h.chainUp i) (hne : j ≠ i) :
    (h.ancRootDown i)[h.depth j]? = some j := by
  have hd := h.primariesDown_getElem_of_mem hj
  rw [h.primariesDown_eq_append] at hd
  have hlt : h.depth j < (h.ancRootDown i).length := by
    rw [h.length_ancRootDown]
    exact h.depth_lt_of_mem_proper hj hne
  rwa [List.getElem?_append_left hlt] at hd

theorem Hier.mem_chainUp_of_mem_ancRootDown (h : Hier) {i j : Nat}
    (hj : j ∈ h.ancRootDown i) : j ∈ h.chainUp i := by
  unfold ancRootDown at hj
  have := List.mem_reverse.mp hj
  exact List.mem_of_mem_tail this

theorem Hier.length_display_le (h : Hier) (a : Nat) :
    (h.display a).length ≤ primaryLimit := by
  unfold display
  simpa using Nat.min_le_left _ _

theorem Hier.canBePrimary_depth_lt (h : Hier) {b : Nat}
    (hel : h.canBePrimary b = true) : h.depth b < primaryLimit := by
  unfold canBePrimary at hel
  simp only [Bool.and_eq_true, decide_eq_true_eq] at hel
  exact hel.2

theorem Hier.canBePrimary_class (h : Hier) {b : Nat}
    (hel : h.canBePrimary b = true) : h.isIface b = false := by
  unfold canBePrimary at hel
  simp only [Bool.and_eq_true, Bool.not_eq_true'] at hel
  exact hel.1

theorem Hier.not_canBePrimary_of_iface (h : Hier) {b : Nat}
    (hif : h.isIface b = true) : h.canBePrimary b = false := by
  unfold canBePrimary
  simp [hif]

/-- The fast path hits for an eligible proper class ancestor: the display
slot at its check offset holds exactly that ancestor. -/
theorem Hier.display_hit_of_mem_chain (h : Hier) {a b : Nat}
    (hb : b ∈ h.chainUp a) (hne : b ≠ a) (hel : h.canBePrimary b = true) :
    (h.display a)[h.superCheckOffset b]? = some b := by
  have hoff : h.superCheckOffset b = h.depth b := by
    unfold superCheckOffset; rw [if_pos hel]
  have hlt : h.depth b < primaryLimit := h.canBePrimary_depth_lt hel
  rw [hoff]
  unfold display
  have : ((h.chainUp a).tail).reverse = h.ancRootDown a := rfl
  rw [this, List.getElem?_take_of_lt hlt]
  exact h.ancRootDown_getElem_of_mem hb hne

/-- A miss is forced at the sentinel slot: the display never has an entry
at the secondary-sentinel offset. -/
theorem Hier.display_sentinel_none (h : Hier) (a : Nat) :
    (h.display a)[primaryLimit]? = none :=
  List.getElem?_eq_none (h.length_display_le a)

/-- An ineligible proper class ancestor is found in the secondary set (the
display spill). -/
theorem Hier.mem_secondaries_of_mem_chain (h : Hier) {a b : Nat}
    (hb : b ∈ h.chainUp a) (hne : b ≠ a) (hcl : h.isIface b = false)
    (hel : h.canBePrimary b = false) : b ∈ h.secondaries a := by
  have hge : primaryLimit ≤ h.depth b := by
    unfold canBePrimary at hel
    simp only [Bool.and_eq_false_iff, Bool.not_eq_false', decide_eq_false_iff_not] at hel
    rcases hel with hif | hdep
    · rw [hif] at hcl; exact absurd hcl (by simp)
    · omega
  have hanc := h.ancRootDown_getElem_of_mem hb hne
  have hdrop : ((h.ancRootDown a).drop primaryLimit)[h.depth b - primaryLimit]? = some b := by
    rw [List.getElem?_drop]
    have : primaryLimit + (h.depth b - primaryLimit) = h.depth b := by omega
    rw [this]; exact hanc
  unfold secondaries
  exact List.mem_append_left _ (List.getElem?_mem hdrop)

/-- Completeness of the modelled fast/slow check: any proper ancestor
(class chain) is accepted. -/
theorem Hier.ksub_true_of_mem_chain (h : Hier) {a b : Nat}
    (hb : b ∈ h.chainUp a) (hne : b ≠ a) : h.ksub a b = true := by
  have hcl : h.isIface b = false := (h.mem_chainUp_class a b hb).resolve_left hne
  by_cases hel : h.canBePrimary b = true
  · unfold ksub
    rw [if_pos (h.display_hit_of_mem_chain hb hne hel)]
  · have hel' : h.canBePrimary b = false := by
      rcases Bool.eq_false_or_eq_true (h.canBePrimary b) with ht | hf
      · exact absurd ht hel
      · exact hf
    have hoff : h.superCheckOffset b = primaryLimit := by
      unfold superCheckOffset; rw [if_neg (by rw [hel']; exact Bool.false_ne_true)]
    unfold ksub
    rw [hoff, h.display_sentinel_none a]
    simp only [reduceCtorEq, if_false, ne_eq, not_true_eq_false, if_false]
    exact decide_eq_true (h.mem_secondaries_of_mem_chain hb hne hcl hel')

/-- Completeness for interfaces: a transitive interface is accepted by the
secondary-set scan. -/
theorem Hier.ksub_true_of_mem_ifaces (h : Hier) {a b : Nat}
    (hb : b ∈ h.ifaces a) : h.ksub a b = true := by
  have hif : h.isIface b = true := h.ifaces_are_ifaces a b hb
  have hel : h.canBePrimary b = false := h.not_canBePrimary_of_iface hif
  have hoff : h.superCheckOffset b = primaryLimit := by
    unfold superCheckOffset; rw [if_neg (by rw [hel]; exact Bool.false_ne_true)]
  unfold ksub
  rw [hoff, h.display_sentinel_none a]
  simp only [reduceCtorEq, if_false, ne_eq, not_true_eq_false, if_false]
  exact decide_eq_true (List.mem_append_right _ hb)

/-- Soundness of the modelled fast/slow check: an accepted `b` really is in
`a`'s full ancestor set. -/
theorem Hier.mem_ancSet_of_ksub (h : Hier) {a b : Nat}
    (hk : h.ksub a b = true) : b ∈ h.ancSet a := by
  unfold ksub at hk
  by_cases h1 : (h.display a)[h.superCheckOffset b]? = some b
  · have hmem : b ∈ h.display a := List.getElem?_mem h1
    have hanc : b ∈ h.ancRootDown a := List.take_subset _ _ hmem
    exact List.mem_append_left _ (h.mem_chainUp_of_mem_ancRootDown hanc)
  · rw [if_neg h1] at hk
    by_cases h2 : h.superCheckOffset b ≠ primaryLimit
    · rw [if_pos h2] at hk; exact absurd hk (by simp)
    · rw [if_neg h2] at hk
      have hsec : b ∈ h.secondaries a := of_decide_eq_true hk
      unfold secondaries at hsec
      rcases List.mem_append.mp hsec with hd | hi
      · have hanc : b ∈ h.ancRootDown a := List.drop_subset _ _ hd
        exact List.mem_append_left _ (h.mem_chainUp_of_mem_ancRootDown hanc)
      · exact List.mem_append_right _ hi

/-- Agreement of the fast/slow check with the brute-force reference test,
for distinct types (the identical case is short-circuited one level up, in
`ciKlass::is_subtype_of`). -/
theorem Hier.ksub_eq_brute_of_ne (h : Hier) {a b : Nat} (hne : a ≠ b) :
    h.ksub a b = h.bruteSubtype a b := by
  unfold bruteSubtype
  rcases Bool.eq_false_or_eq_true (h.ksub a b) with ht | hf
  · rw [ht]
    exact (decide_eq_true (h.mem_ancSet_of_ksub ht)).symm
  · rw [hf]
    symm
    rw [decide_eq_false_iff_not]
    intro hmem
    have : h.ksub a b = true := by
      rcases List.mem_append.mp hmem with hc | hi
      · exact h.ksub_true_of_mem_chain hc (fun hba => hne hba.symm)
      · exact h.ksub_true_of_mem_ifaces hi
    rw [this] at hf
    exact Bool.noConfusion hf

/-- Longest common prefix of two lists (the root-down walk of the LCA:
"walk both hierarchy displays from the root downward comparing
corresponding ancestors until they diverge"). -/
def commonPrefix : List Nat → List Nat → List Nat
  | x :: xs, y :: ys => if x = y then x :: commonPrefix xs ys else []
  | _, _ => []

theorem commonPrefix_nil_left (ys : List Nat) : commonPrefix [] ys = [] := by
  cases ys <;> rfl

theorem commonPrefix_nil_right (xs : List Nat) : commonPrefix xs [] = [] := by
  cases xs <;> rfl

theorem commonPrefix_prefix_left :
    ∀ xs ys : List Nat, commonPrefix xs ys <+: xs := by
  intro xs
  induction xs with
  | nil => intro ys; rw [commonPrefix_nil_left]
  | cons x xs ih =>
    intro ys
    cases ys with
    | nil => rw [commonPrefix_nil_right]; exact List.nil_prefix
    | cons y ys =>
      by_cases hxy : x = y
      · show (if x = y then x :: commonPrefix xs ys else []) <+: x :: xs
        rw [if_pos hxy]
        exact List.cons_prefix_cons.mpr ⟨rfl, ih ys⟩
      · show (if x = y then x :: commonPrefix xs ys else []) <+: x :: xs
        rw [if_neg hxy]
        exact List.nil_prefix

theorem commonPrefix_prefix_right :
    ∀ xs ys : List Nat, commonPrefix xs ys <+: ys := by
  intro xs
  induction xs with
  | nil => intro ys; rw [commonPrefix_nil_left]; exact List.nil_prefix
  | cons x xs ih =>
    intro ys
    cases ys with
    | nil => rw [commonPrefix_nil_right]
    | cons y ys =>
      by_cases hxy : x = y
      · show (if x = y then x :: commonPrefix xs ys else []) <+: y :: ys
        rw [if_pos hxy, hxy]
        exact List.cons_prefix_cons.mpr ⟨rfl, ih ys⟩
      · show (if x = y then x :: commonPrefix xs ys else []) <+: y :: ys
        rw [if_neg hxy]
        exact List.nil_prefix

theorem prefix_commonPrefix :
    ∀ (l xs ys : List Nat), l <+: xs → l <+: ys → l <+: commonPrefix xs ys := by
  intro l
  induction l with
  | nil => intro xs ys _ _; exact List.nil_prefix
  | cons a l ih =>
    intro xs ys hx hy
    rcases hx with ⟨tx, hx⟩
    rcases hy with ⟨ty, hy⟩
    subst hx; subst hy
    show a :: l <+: (if a = a then a :: commonPrefix (l ++ tx) (l ++ ty) else [])
    rw [if_pos rfl]
    exact List.cons_prefix_cons.mpr
      ⟨rfl, ih (l ++ tx) (l ++ ty) (List.prefix_append l tx) (List.prefix_append l ty)⟩

theorem commonPrefix_of_prefix_right (xs ys : List Nat) (h : ys <+: xs) :
    commonPrefix xs ys = ys := by
  have h1 : ys <+: commonPrefix xs ys :=
    prefix_commonPrefix ys xs ys h (List.prefix_refl ys)
  have h2 : commonPrefix xs ys <+: ys := commonPrefix_prefix_right xs ys
  exact h2.eq_of_length (Nat.le_antisymm h2.length_le h1.length_le)

theorem commonPrefix_of_prefix_left (xs ys : List Nat) (h : xs <+: ys) :
    commonPrefix xs ys = xs := by
  have h1 : xs <+: commonPrefix xs ys :=
    prefix_commonPrefix xs xs ys (List.prefix_refl xs) h
  have h2 : commonPrefix xs ys <+: xs := commonPrefix_prefix_left xs ys
  exact h2.eq_of_length (Nat.le_antisymm h2.length_le h1.length_le)

/-- Modelled from the spec: the VM-side LCA walk — "walk both hierarchy
displays from the root downward comparing corresponding ancestors until
they diverge; the last position at which they agreed is the LCA". -/
def Hier.klassLCA (h : Hier) (a b : Nat) : Nat :=
  (commonPrefix (h.primariesDown a) (h.primariesDown b)).getLastD 0

theorem Hier.getLast_chainUp (h : Hier) (i : Nat) :
    (h.chainUp i).getLast? = some 0 := by
  induction i using Nat.strong_induction_on with
  | _ i ih =>
    by_cases hi : i = 0
    · subst hi; rw [h.chainUp_zero]; rfl
    · rw [h.chainUp_pos i hi, List.getLast?_cons,
        ih (h.parent i) (h.parent_lt i hi)]
      rfl

theorem Hier.head_primariesDown (h : Hier) (i : Nat) :
    (h.primariesDown i).head? = some 0 := by
  unfold primariesDown
  rw [List.head?_reverse]
  exact h.getLast_chainUp i

theorem Hier.getLast_primariesDown (h : Hier) (i : Nat) :
    (h.primariesDown i).getLast? = some i := by
  unfold primariesDown
  rw [List.getLast?_reverse]
  exact h.head_chainUp i

theorem Hier.commonPrefix_primariesDown_ne_nil (h : Hier) (a b : Nat) :
    commonPrefix (h.primariesDown a) (h.primariesDown b) ≠ [] := by
  rcases List.head?_eq_some_iff.mp (h.head_primariesDown a) with ⟨ta, hta⟩
  rcases List.head?_eq_some_iff.mp (h.head_primariesDown b) with ⟨tb, htb⟩
  rw [hta, htb]
  show (if (0 : Nat) = 0 then (0 : Nat) :: commonPrefix ta tb else []) ≠ []
  rw [if_pos rfl]
  exact List.cons_ne_nil 0 _

theorem Hier.klassLCA_getLast (h : Hier) (a b : Nat) :
    (commonPrefix (h.primariesDown a) (h.primariesDown b)).getLast? =
      some (h.klassLCA a b) := by
  have hne := h.commonPrefix_primariesDown_ne_nil a b
  unfold klassLCA
  rcases Option.isSome_iff_exists.mp (List.getLast?_isSome.mpr hne) with ⟨x, hx⟩
  rw [hx, List.getLastD_eq_getLast?, hx]
  rfl

theorem Hier.klassLCA_mem_left (h : Hier) (a b : Nat) :
    h.klassLCA a b ∈ h.chainUp a := by
  have hmem : h.klassLCA a b ∈ commonPrefix (h.primariesDown a) (h.primariesDown b) :=
    List.mem_of_getLast?_eq_some (h.klassLCA_getLast a b)
  have : h.klassLCA a b ∈ h.primariesDown a :=
    (commonPrefix_prefix_left _ _).subset hmem
  unfold primariesDown at this
  exact List.mem_reverse.mp this

theorem Hier.klassLCA_mem_right (h : Hier) (a b : Nat) :
    h.klassLCA a b ∈ h.chainUp b := by
  have hmem : h.klassLCA a b ∈ commonPrefix (h.primariesDown a) (h.primariesDown b) :=
    List.mem_of_getLast?_eq_some (h.klassLCA_getLast a b)
  have : h.klassLCA a b ∈ h.primariesDown b :=
    (commonPrefix_prefix_right _ _).subset hmem
  unfold primariesDown at this
  exact List.mem_reverse.mp this

theorem Hier.depth_klassLCA (h : Hier) (a b : Nat) :
    h.depth (h.klassLCA a b) + 1 =
      (commonPrefix (h.primariesDown a) (h.primariesDown b)).length := by
  set cp := commonPrefix (h.primariesDown a) (h.primariesDown b) with hcp
  have hne : cp ≠ [] := h.commonPrefix_primariesDown_ne_nil a b
  have hlast : cp.getLast? = some (h.klassLCA a b) := h.klassLCA_getLast a b
  have hlen : 0 < cp.length := List.length_pos.mpr hne
  have hget : cp[cp.length - 1]? = some (h.klassLCA a b) := by
    rw [← List.getLast?_eq_getElem?]; exact hlast
  have hpre : cp <+: h.primariesDown a := commonPrefix_prefix_left _ _
  have hlt : cp.length - 1 < cp.length := by omega
  have hgetp : (h.primariesDown a)[cp.length - 1]? = some (h.klassLCA a b) := by
    have := hpre.getElem hlt
    rw [List.getElem?_eq_getElem (Nat.lt_of_lt_of_le hlt hpre.length_le), ← this,
      ← List.getElem?_eq_getElem hlt]
    exact hget
  have := h.depth_eq_of_getElem hgetp
  omega

/-- LCA maximality: any common class-chain ancestor of `a` and `b` is no
deeper than the computed LCA. -/
theorem Hier.klassLCA_maximal (h : Hier) (a b c : Nat)
    (hca : c ∈ h.chainUp a) (hcb : c ∈ h.chainUp b) :
    h.depth c ≤ h.depth (h.klassLCA a b) := by
  have hpa : h.primariesDown c <+: h.primariesDown a := h.primariesDown_ofChainMem hca
  have hpb : h.primariesDown c <+: h.primariesDown b := h.primariesDown_ofChainMem hcb
  have hcp : h.primariesDown c <+:
      commonPrefix (h.primariesDown a) (h.primariesDown b) :=
    prefix_commonPrefix _ _ _ hpa hpb
  have hlen := hcp.length_le
  rw [h.length_primariesDown] at hlen
  have := h.depth_klassLCA a b
  omega

/-- When `b` lies on `a`'s class chain, the root-down walk returns `b`
itself (the spec's ancestor fast path). -/
theorem Hier.klassLCA_of_mem_chain_right (h : Hier) (a b : Nat)
    (hb : b ∈ h.chainUp a) : h.klassLCA a b = b := by
  have hpre : h.primariesDown b <+: h.primariesDown a := h.primariesDown_ofChainMem hb
  have hcp : commonPrefix (h.primariesDown a) (h.primariesDown b) =
      h.primariesDown b := commonPrefix_of_prefix_right _ _ hpre
  have := h.klassLCA_getLast a b
  rw [hcp, h.getLast_primariesDown] at this
  exact (Option.some.injEq _ _ ▸ this).symm

/-- Symmetric ancestor fast path: when `a` lies on `b`'s class chain the
walk returns `a`. -/
theorem Hier.klassLCA_of_mem_chain_left (h : Hier) (a b : Nat)
    (ha : a ∈ h.chainUp b) : h.klassLCA a b = a := by
  have hpre : h.primariesDown a <+: h.primariesDown b := h.primariesDown_ofChainMem ha
  have hcp : commonPrefix (h.primariesDown a) (h.primariesDown b) =
      h.primariesDown a := commonPrefix_of_prefix_left _ _ hpre
  have := h.klassLCA_getLast a b
  rw [hcp, h.getLast_primariesDown] at this
  exact (Option.some.injEq _ _ ▸ this).symm

/-- A compiler-interface type handle (`ciKlass`): the identity of the
underlying heap Klass, an arena tag distinguishing handle instances, the
load state fixed at construction, and the interned name. -/
structure CiKlass where
  kid : Nat
  tag : Nat
  loaded : Bool
  name : String
deriving DecidableEq, Repr

/-- The error taxonomy of the oracle's loaded-only operations: a debug
assert (`assert(is_loaded(), ...)`) is a contract breach. -/
inductive CiError where
  | PreconditionViolated
deriving DecidableEq, Repr

/-- The session environment a compilation task holds (`ciEnv` /
`CURRENT_THREAD_ENV`): the heap hierarchy it snapshots and its
deduplicating identity-to-handle map (`get_klass`).  `getKlass_kid` and
`getKlass_loaded` record the oracle invariants: the canonical handle of a
live Klass proxies exactly that Klass and is loaded. -/
structure CiEnv where
  h : Hier
  getKlass : Nat → CiKlass
  findMap : Nat → String → Option Nat
  modFlagsOf : Nat → Nat
  accFlagsOf : Nat → Nat
  getKlass_kid : ∀ k, (getKlass k).kid = k
  getKlass_loaded : ∀ k, (getKlass k).loaded = true

/-- Embeds `ciKlass::ciKlass(ciSymbol* name, BasicType bt)`: the unloaded-klass
constructor, reached through `ciEnv` when a name cannot be resolved; the
handle it builds carries the name and no live identity. -/
def resolveUnloaded (nm : String) : CiKlass :=
  { kid := 0, tag := 0, loaded := false, name := nm }

/-- Embeds `ciKlass::is_subtype_of` (src/unnamed/part_000 lines 68-83): asserts
both handles loaded, short-circuits identical handles, otherwise crosses
the wall to the VM-side check. -/
def CiEnv.is_subtype_of (env : CiEnv) (a b : CiKlass) : Except CiError Bool :=
  if a.loaded = false then .error .PreconditionViolated
  else if b.loaded = false then .error .PreconditionViolated
  else if a = b then .ok true
  else .ok (env.h.ksub a.kid b.kid)

/-- Embeds `ciKlass::is_subclass_of` (lines 87-92): asserts both loaded, then
walks the class chain inside the guarded VM-entry scope. -/
def CiEnv.is_subclass_of (env : CiEnv) (a b : CiKlass) : Except CiError Bool :=
  if a.loaded = false then .error .PreconditionViolated
  else if b.loaded = false then .error .PreconditionViolated
  else .ok (env.h.ksubclass a.kid b.kid)

/-- Embeds `ciKlass::super_depth` (lines 96-102). -/
def CiEnv.super_depth (env : CiEnv) (a : CiKlass) : Except CiError Nat :=
  if a.loaded = false then .error .PreconditionViolated
  else .ok (env.h.depth a.kid)

/-- Embeds `ciKlass::super_check_offset` (lines 106-112): the value the code
generator embeds into emitted instructions. -/
def CiEnv.super_check_offset (env : CiEnv) (a : CiKlass) : Except CiError Nat :=
  if a.loaded = false then .error .PreconditionViolated
  else .ok (env.h.superCheckOffset a.kid)

/-- Modelled from the spec: the VM-side `Klass::primary_super_of_depth` —
"Returns the ancestor at position `i` in `A`'s primary supertype display",
null past the display. -/
def Hier.primarySuperOfDepth (h : Hier) (k i : Nat) : Option Nat :=
  (h.display k)[i]?

/-- Embeds `ciKlass::super_of_depth` (lines 116-123): asserts loaded, reads the
display slot, and wraps a non-null result through the oracle's handle
map. -/
def CiEnv.super_of_depth (env : CiEnv) (a : CiKlass) (i : Nat) :
    Except CiError (Option CiKlass) :=
  if a.loaded = false then .error .PreconditionViolated
  else .ok ((env.h.primarySuperOfDepth a.kid i).map env.getKlass)

/-- Embeds `ciKlass::can_be_primary_super` (lines 127-133). -/
def CiEnv.can_be_primary_super (env : CiEnv) (a : CiKlass) : Except CiError Bool :=
  if a.loaded = false then .error .PreconditionViolated
  else .ok (env.h.canBePrimary a.kid)

/-- Embeds `ciKlass::least_common_ancestor` (lines 147-174): asserts both loaded,
short-circuits identical handles, runs the VM-side LCA walk, returns the
argument handle itself when the LCA is one of the two inputs and only
otherwise resolves a handle through the oracle. -/
def CiEnv.least_common_ancestor (env : CiEnv) (a b : CiKlass) :
    Except CiError CiKlass :=
  if a.loaded = false then .error .PreconditionViolated
  else if b.loaded = false then .error .PreconditionViolated
  else if a = b then .ok a
  else
    if env.h.klassLCA a.kid b.kid = b.kid then .ok b
    else if a.kid = env.h.klassLCA a.kid b.kid then .ok a
    else .ok (env.getKlass (env.h.klassLCA a.kid b.kid))

/-- Embeds `ciKlass::find_klass` (lines 180-184): asserts the receiver loaded,
then looks the name up through the receiver's class loader. -/
def CiEnv.find_klass (env : CiEnv) (a : CiKlass) (nm : String) :
    Except CiError (Option CiKlass) :=
  if a.loaded = false then .error .PreconditionViolated
  else .ok ((env.findMap a.kid nm).map env.getKlass)

/-- Embeds `ciKlass::modifier_flags` (lines 203-208). -/
def CiEnv.modifier_flags (env : CiEnv) (a : CiKlass) : Except CiError Nat :=
  if a.loaded = false then .error .PreconditionViolated
  else .ok (env.modFlagsOf a.kid)

/-- Embeds `ciKlass::access_flags` (lines 212-217). -/
def CiEnv.access_flags (env : CiEnv) (a : CiKlass) : Except CiError Nat :=
  if a.loaded = false then .error .PreconditionViolated
  else .ok (env.accFlagsOf a.kid)

theorem CiEnv.getKlass_inj (env : CiEnv) {ka kb : Nat}
    (hk : env.getKlass ka = env.getKlass kb) : ka = kb := by
  have h1 := env.getKlass_kid ka
  have h2 := env.getKlass_kid kb
  rw [← h1, ← h2, hk]

/-- A concrete deep single-inheritance hierarchy (type `i` extends
`i - 1`, no interfaces) used to instantiate witnesses; its chains exceed
the display capacity from type 9 on. -/
def chainHier : Hier where
  parent := fun i => i - 1
  isIface := fun _ => false
  ifaces := fun _ => []
  parent_lt := fun i hi => by
    show i - 1 < i
    omega
  parent_class := fun _ => rfl
  root_class := rfl
  ifaces_are_ifaces := fun _ _ hmem => absurd hmem (List.not_mem_nil _)

/-- A concrete session over `chainHier` whose handle map is the canonical
one. -/
def chainEnv : CiEnv where
  h := chainHier
  getKlass := fun k => ⟨k, 0, true, ""⟩
  findMap := fun _ _ => none
  modFlagsOf := fun _ => 0
  accFlagsOf := fun _ => 0
  getKlass_kid := fun _ => rfl
  getKlass_loaded := fun _ => rfl

theorem Hier.depth_le_of_mem_chain (h : Hier) {i j : Nat}
    (hj : j ∈ h.chainUp i) : h.depth j ≤ h.depth i := by
  have := (h.primariesDown_ofChainMem hj).length_le
  rw [h.length_primariesDown, h.length_primariesDown] at this
  omega

/-- On canonical handles, the full `is_subtype_of` accepts any member of
the class chain (the identity short-circuit covers the head, the modelled
fast/slow check the proper ancestors). -/
theorem CiEnv.is_subtype_of_of_mem_chain (env : CiEnv) {ka kb : Nat}
    (hmem : kb ∈ env.h.chainUp ka) :
    env.is_subtype_of (env.getKlass ka) (env.getKlass kb) = .ok true := by
  unfold is_subtype_of
  rw [if_neg (by rw [env.getKlass_loaded ka]; simp)]
  rw [if_neg (by rw [env.getKlass_loaded kb]; simp)]
  by_cases heq : ka = kb
  · subst heq
    rw [if_pos rfl]
  · rw [if_neg (fun hk => heq (env.getKlass_inj hk))]
    rw [env.getKlass_kid ka, env.getKlass_kid kb]
    rw [env.h.ksub_true_of_mem_chain hmem (fun hba => heq hba.symm)]

/-- On canonical handles `least_common_ancestor` always produces the
canonical handle of the modelled LCA walk's result (each special-case
branch returns the argument handle, which is that canonical handle). -/
theorem CiEnv.least_common_ancestor_canonical (env : CiEnv) (ka kb : Nat) :
    env.least_common_ancestor (env.getKlass ka) (env.getKlass kb) =
      .ok (env.getKlass (env.h.klassLCA ka kb)) := by
  unfold least_common_ancestor
  rw [if_neg (by rw [env.getKlass_loaded ka]; simp)]
  rw [if_neg (by rw [env.getKlass_loaded kb]; simp)]
  by_cases heq : ka = kb
  · subst heq
    rw [if_pos rfl, env.h.klassLCA_of_mem_chain_right ka ka (env.h.mem_chainUp_self ka)]
  · rw [if_neg (fun hk => heq (env.getKlass_inj hk))]
    rw [env.getKlass_kid ka, env.getKlass_kid kb]
    by_cases h1 : env.h.klassLCA ka kb = kb
    · rw [if_pos h1, h1]
    · rw [if_neg h1]
      by_cases h2 : ka = env.h.klassLCA ka kb
      · rw [if_pos h2, ← h2]
      · rw [if_neg h2]

/-- C1: for every pair of loaded types (canonical handles of a session),
`is_subtype_of` returns exactly the answer of the brute-force membership
test of `B` in `A`'s full ancestor set — whether `B` is eligible for the
primary display (display-slot compare, conclusive on miss) or ineligible
(secondary-set scan), and whether or not `A`'s chain spills past the
display capacity. -/
theorem C1_is_subtype_of_agrees_with_brute_force (env : CiEnv) (ka kb : Nat) :
    env.is_subtype_of (env.getKlass ka) (env.getKlass kb) =
      .ok (env.h.bruteSubtype ka kb) := by
  unfold CiEnv.is_subtype_of
  rw [if_neg (by rw [env.getKlass_loaded ka]; simp)]
  rw [if_neg (by rw [env.getKlass_loaded kb]; simp)]
  by_cases heq : ka = kb
  · subst heq
    rw [if_pos rfl]
    unfold Hier.bruteSubtype
    have hmem : ka ∈ env.h.ancSet ka :=
      List.mem_append_left _ (env.h.mem_chainUp_self ka)
    rw [decide_eq_true hmem]
  · rw [if_neg (fun hk => heq (env.getKlass_inj hk))]
    rw [env.getKlass_kid ka, env.getKlass_kid kb]
    rw [env.h.ksub_eq_brute_of_ne heq]

/-- C2: the LCA of two loaded types is itself loaded, is a supertype of
both inputs, and has maximal depth among the common ancestors on the
single-inheritance class chains. -/
theorem C2_least_common_ancestor_correct (env : CiEnv) (ka kb : Nat) :
    ∃ L : CiKlass,
      env.least_common_ancestor (env.getKlass ka) (env.getKlass kb) = .ok L ∧
      L.loaded = true ∧
      env.is_subtype_of (env.getKlass ka) L = .ok true ∧
      env.is_subtype_of (env.getKlass kb) L = .ok true ∧
      ∀ c, c ∈ env.h.chainUp ka → c ∈ env.h.chainUp kb →
        env.h.depth c ≤ env.h.depth L.kid := by
  refine ⟨env.getKlass (env.h.klassLCA ka kb),
    env.least_common_ancestor_canonical ka kb,
    env.getKlass_loaded _,
    env.is_subtype_of_of_mem_chain (env.h.klassLCA_mem_left ka kb),
    env.is_subtype_of_of_mem_chain (env.h.klassLCA_mem_right ka kb),
    ?_⟩
  intro c hca hcb
  rw [env.getKlass_kid]
  exact env.h.klassLCA_maximal ka kb c hca hcb

/-- C4: for distinct loaded types, `least_common_ancestor` returns `B`'s
own handle instance when the computed LCA is `B` (symmetrically `A`'s),
resolves through the oracle only otherwise, and when one input is an
ancestor of the other that input is the result. -/
theorem C4_lca_returns_input_handle (env : CiEnv) (a b : CiKlass)
    (ha : a.loaded = true) (hb : b.loaded = true) (hkid : a.kid ≠ b.kid) :
    (env.h.klassLCA a.kid b.kid = b.kid →
      env.least_common_ancestor a b = .ok b) ∧
    (env.h.klassLCA a.kid b.kid ≠ b.kid →
      a.kid = env.h.klassLCA a.kid b.kid →
      env.least_common_ancestor a b = .ok a) ∧
    (env.h.klassLCA a.kid b.kid ≠ b.kid →
      a.kid ≠ env.h.klassLCA a.kid b.kid →
      env.least_common_ancestor a b =
        .ok (env.getKlass (env.h.klassLCA a.kid b.kid))) ∧
    (b.kid ∈ env.h.chainUp a.kid → env.least_common_ancestor a b = .ok b) ∧
    (a.kid ∈ env.h.chainUp b.kid → env.least_common_ancestor a b = .ok a) := by
  have hne : a ≠ b := fun h => hkid (congrArg CiKlass.kid h)
  have hopen : ∀ r : Except CiError CiKlass,
      (env.least_common_ancestor a b = r) ↔
      ((if env.h.klassLCA a.kid b.kid = b.kid then Except.ok b
        else if a.kid = env.h.klassLCA a.kid b.kid then Except.ok a
        else Except.ok (env.getKlass (env.h.klassLCA a.kid b.kid))) = r) := by
    intro r
    unfold CiEnv.least_common_ancestor
    rw [if_neg (by rw [ha]; simp),
      if_neg (by rw [hb]; simp), if_neg hne]
  refine ⟨?_, ?_, ?_, ?_, ?_⟩
  · intro h1
    rw [hopen, if_pos h1]
  · intro h1 h2
    rw [hopen, if_neg h1, if_pos h2]
  · intro h1 h2
    rw [hopen, if_neg h1, if_neg h2]
  · intro hmem
    rw [hopen, if_pos (env.h.klassLCA_of_mem_chain_right _ _ hmem)]
  · intro hmem
    have hlca : env.h.klassLCA a.kid b.kid = a.kid :=
      env.h.klassLCA_of_mem_chain_left _ _ hmem
    rw [hopen, if_neg (by rw [hlca]; exact hkid), if_pos hlca.symm]

/-- C4 witness: in the concrete deep chain, type 5 is an ancestor of
type 7, so the LCA returns the handle for 5 itself. -/
theorem C4_lca_returns_input_handle_witness :
    chainEnv.least_common_ancestor ⟨7, 0, true, ""⟩ ⟨5, 0, true, ""⟩ =
      .ok ⟨5, 0, true, ""⟩ :=
  (C4_lca_returns_input_handle chainEnv ⟨7, 0, true, ""⟩ ⟨5, 0, true, ""⟩
    rfl rfl (by decide)).2.2.2.1 (by decide)

/-- C5: every loaded-only operation invoked with an unloaded handle as its
receiver or required-loaded argument fails with `PreconditionViolated`
rather than returning an ordinary result; and a handle produced by
`resolveUnloaded` is not loaded and makes `is_subtype_of` fail that way. -/
theorem C5_loaded_only_ops_fail_on_unloaded (env : CiEnv) (a b : CiKlass)
    (i : Nat) (nm : String) (ha : a.loaded = false) :
    env.is_subtype_of a b = .error .PreconditionViolated ∧
    env.is_subtype_of b a = .error .PreconditionViolated ∧
    env.is_subclass_of a b = .error .PreconditionViolated ∧
    env.is_subclass_of b a = .error .PreconditionViolated ∧
    env.super_depth a = .error .PreconditionViolated ∧
    env.super_check_offset a = .error .PreconditionViolated ∧
    env.super_of_depth a i = .error .PreconditionViolated ∧
    env.least_common_ancestor a b = .error .PreconditionViolated ∧
    env.least_common_ancestor b a = .error .PreconditionViolated ∧
    env.find_klass a nm = .error .PreconditionViolated ∧
    env.modifier_flags a = .error .PreconditionViolated ∧
    env.access_flags a = .error .PreconditionViolated ∧
    (resolveUnloaded nm).loaded = false ∧
    env.is_subtype_of (resolveUnloaded nm) b = .error .PreconditionViolated := by
  refine ⟨?_, ?_, ?_, ?_, ?_, ?_, ?_, ?_, ?_, ?_, ?_, ?_, rfl, ?_⟩
  · unfold CiEnv.is_subtype_of; rw [if_pos ha]
  · unfold CiEnv.is_subtype_of
    by_cases hb : b.loaded = false
    · rw [if_pos hb]
    · rw [if_neg hb, if_pos ha]
  · unfold CiEnv.is_subclass_of; rw [if_pos ha]
  · unfold CiEnv.is_subclass_of
    by_cases hb : b.loaded = false
    · rw [if_pos hb]
    · rw [if_neg hb, if_pos ha]
  · unfold CiEnv.super_depth; rw [if_pos ha]
  · unfold CiEnv.super_check_offset; rw [if_pos ha]
  · unfold CiEnv.super_of_depth; rw [if_pos ha]
  · unfold CiEnv.least_common_ancestor; rw [if_pos ha]
  · unfold CiEnv.least_common_ancestor
    by_cases hb : b.loaded = false
    · rw [if_pos hb]
    · rw [if_neg hb, if_pos ha]
  · unfold CiEnv.find_klass; rw [if_pos ha]
  · unfold CiEnv.modifier_flags; rw [if_pos ha]
  · unfold CiEnv.access_flags; rw [if_pos ha]
  · rfl

/-- C5 witness: an unloaded placeholder for a missing class makes
`is_subtype_of` fail with `PreconditionViolated` at a concrete input. -/
theorem C5_loaded_only_ops_fail_on_unloaded_witness :
    chainEnv.is_subtype_of (resolveUnloaded "com/example/Foo") ⟨3, 0, true, ""⟩ =
      .error .PreconditionViolated :=
  (C5_loaded_only_ops_fail_on_unloaded chainEnv
    (resolveUnloaded "com/example/Foo") ⟨3, 0, true, ""⟩ 0 "com/example/Foo"
    rfl).1

/-- C7: `super_of_depth` on a loaded handle returns the ancestor at
position `i` of the primary display (the unique chain member of depth `i`,
never the type itself) while `i` is inside the display, and a null result
— not a failure — once `i` is at or past the type's own depth; in
particular `i = depth` already yields null. -/
theorem C7_super_of_depth_in_and_out_of_range (env : CiEnv) (a : CiKlass)
    (i : Nat) (ha : a.loaded = true) :
    (i < env.h.depth a.kid → i < primaryLimit →
      ∃ c, c ∈ env.h.chainUp a.kid ∧ c ≠ a.kid ∧ env.h.depth c = i ∧
        env.super_of_depth a i = .ok (some (env.getKlass c))) ∧
    (env.h.depth a.kid ≤ i → env.super_of_depth a i = .ok none) := by
  have hok : env.super_of_depth a i =
      .ok ((env.h.primarySuperOfDepth a.kid i).map env.getKlass) := by
    unfold CiEnv.super_of_depth
    rw [if_neg (by rw [ha]; simp)]
  constructor
  · intro hd hcap
    have hlen : i < (env.h.ancRootDown a.kid).length := by
      rw [env.h.length_ancRootDown]; exact hd
    set c := (env.h.ancRootDown a.kid).get ⟨i, hlen⟩ with hc
    have hcg : (env.h.ancRootDown a.kid)[i]? = some c :=
      List.getElem?_eq_getElem hlen
    have hpdg : (env.h.primariesDown a.kid)[i]? = some c := by
      rw [env.h.primariesDown_eq_append, List.getElem?_append_left hlen]
      exact hcg
    have hdepth : env.h.depth c = i := env.h.depth_eq_of_getElem hpdg
    have hmem : c ∈ env.h.chainUp a.kid :=
      env.h.mem_chainUp_of_mem_ancRootDown (List.getElem?_mem hcg)
    have hne : c ≠ a.kid := by
      intro hca
      rw [hca] at hdepth
      omega
    refine ⟨c, hmem, hne, hdepth, ?_⟩
    rw [hok]
    unfold Hier.primarySuperOfDepth Hier.display
    have : ((env.h.chainUp a.kid).tail).reverse = env.h.ancRootDown a.kid := rfl
    rw [this, List.getElem?_take_of_lt hcap, hcg]
    rfl
  · intro hd
    rw [hok]
    unfold Hier.primarySuperOfDepth
    have hnone : (env.h.display a.kid)[i]? = none := by
      apply List.getElem?_eq_none
      calc (env.h.display a.kid).length
          ≤ (env.h.ancRootDown a.kid).length := by
            unfold Hier.display
            rw [List.length_take]
            exact Nat.min_le_right _ _
        _ = env.h.depth a.kid := env.h.length_ancRootDown a.kid
        _ ≤ i := hd
    rw [hnone]
    rfl

/-- C7 witness: in the chain Object(0) <- 1 <- 2 <- 3,
`super_of_depth(3, 0)` is the root handle and `super_of_depth(3, 3)` is
null. -/
theorem C7_super_of_depth_witness :
    chainEnv.super_of_depth ⟨3, 0, true, ""⟩ 3 = .ok none ∧
    chainEnv.super_of_depth ⟨3, 0, true, ""⟩ 0 = .ok (some ⟨0, 0, true, ""⟩) :=
  ⟨(C7_super_of_depth_in_and_out_of_range chainEnv ⟨3, 0, true, ""⟩ 3 rfl).2
      (by decide),
   rfl⟩

/-- C8: reflexivity of the hierarchy operations through the identity
short-circuit — for every loaded handle, `is_subtype_of(A, A)` is true and
`least_common_ancestor(A, A)` is `A`'s own handle, in every session
environment (the branch never reads the heap-side hierarchy). -/
theorem C8_reflexivity (env : CiEnv) (a : CiKlass) (ha : a.loaded = true) :
    env.is_subtype_of a a = .ok true ∧
    env.least_common_ancestor a a = .ok a := by
  constructor
  · unfold CiEnv.is_subtype_of
    rw [if_neg (by rw [ha]; simp), if_neg (by rw [ha]; simp), if_pos rfl]
  · unfold CiEnv.least_common_ancestor
    rw [if_neg (by rw [ha]; simp), if_neg (by rw [ha]; simp), if_pos rfl]

/-- C8 witness: reflexivity at a concrete loaded handle. -/
theorem C8_reflexivity_witness :
    chainEnv.is_subtype_of ⟨3, 0, true, ""⟩ ⟨3, 0, true, ""⟩ = .ok true ∧
    chainEnv.least_common_ancestor ⟨3, 0, true, ""⟩ ⟨3, 0, true, ""⟩ =
      .ok ⟨3, 0, true, ""⟩ :=
  C8_reflexivity chainEnv ⟨3, 0, true, ""⟩ rfl

/-- Modelled from the spec: the session-time view of the live heap.  The
heap mutates over time (class loading runs concurrently), but "once a
`TypeHandle` is cached, all of its fields are stable for the remainder of
the owning `TypeOracle`'s lifetime": the hierarchy fields of a klass
already loaded at time `t` read the same at every later time, so accessors
need no re-validation against the live heap. -/
structure Session where
  heapAt : Nat → Hier
  loadedAt : Nat → Nat → Bool
  loaded_mono : ∀ t u k, t ≤ u → loadedAt t k = true → loadedAt u k = true
  stable_offset : ∀ t u k, t ≤ u → loadedAt t k = true →
    (heapAt u).superCheckOffset k = (heapAt t).superCheckOffset k
  stable_depth : ∀ t u k, t ≤ u → loadedAt t k = true →
    (heapAt u).depth k = (heapAt t).depth k

/-- Embeds `ciKlass::super_check_offset` as observed at session time `t` (each
call crosses the wall and re-reads the live Klass). -/
def Session.super_check_offset_at (s : Session) (t : Nat) (a : CiKlass) :
    Except CiError Nat :=
  if a.loaded = false then .error .PreconditionViolated
  else .ok ((s.heapAt t).superCheckOffset a.kid)

/-- Embeds `ciKlass::super_depth` as observed at session time `t`. -/
def Session.super_depth_at (s : Session) (t : Nat) (a : CiKlass) :
    Except CiError Nat :=
  if a.loaded = false then .error .PreconditionViolated
  else .ok ((s.heapAt t).depth a.kid)

/-- C3: the fields a cached handle exposes — in particular the check-slot
offset the code generator embeds and the hierarchy depth — are stable for
the rest of the session: two reads of the same accessor on the same
handle, at any two times after the handle's klass was resolved, return
equal values. -/
theorem C3_handle_fields_stable (s : Session) (a : CiKlass)
    (t0 t1 t2 : Nat) (hres : s.loadedAt t0 a.kid = true)
    (h1 : t0 ≤ t1) (h2 : t0 ≤ t2) :
    s.super_check_offset_at t1 a = s.super_check_offset_at t2 a ∧
    s.super_depth_at t1 a = s.super_depth_at t2 a := by
  constructor
  · unfold Session.super_check_offset_at
    by_cases hl : a.loaded = false
    · rw [if_pos hl, if_pos hl]
    · rw [if_neg hl, if_neg hl,
        s.stable_offset t0 t1 a.kid h1 hres, s.stable_offset t0 t2 a.kid h2 hres]
  · unfold Session.super_depth_at
    by_cases hl : a.loaded = false
    · rw [if_pos hl, if_pos hl]
    · rw [if_neg hl, if_neg hl,
        s.stable_depth t0 t1 a.kid h1 hres, s.stable_depth t0 t2 a.kid h2 hres]

/-- A concrete session whose heap never changes, for the C3 witness. -/
def chainSession : Session where
  heapAt := fun _ => chainHier
  loadedAt := fun _ _ => true
  loaded_mono := fun _ _ _ _ _ => rfl
  stable_offset := fun _ _ _ _ _ => rfl
  stable_depth := fun _ _ _ _ _ => rfl

/-- C3 witness: two reads of the accessors at different session times on a
concrete handle agree. -/
theorem C3_handle_fields_stable_witness :
    chainSession.super_check_offset_at 1 ⟨3, 0, true, ""⟩ =
      chainSession.super_check_offset_at 2 ⟨3, 0, true, ""⟩ ∧
    chainSession.super_depth_at 1 ⟨3, 0, true, ""⟩ =
      chainSession.super_depth_at 2 ⟨3, 0, true, ""⟩ :=
  C3_handle_fields_stable chainSession ⟨3, 0, true, ""⟩ 0 1 2 rfl
    (by decide) (by decide)

/-- Events on the guarded heap-entry scope (`VM_ENTRY_MARK`,
`GUARDED_VM_ENTRY`, `ZLocker`). -/
inductive ScopeEvent where
  | acquire
  | release
deriving DecidableEq, Repr

/-- Runs a trace from a given held-depth: `none` when a release occurs
with nothing held, otherwise the final held-depth. -/
def scopeDepth : Nat → List ScopeEvent → Option Nat
  | d, [] => some d
  | d, ScopeEvent.acquire :: tr => scopeDepth (d + 1) tr
  | 0, ScopeEvent.release :: _ => none
  | d + 1, ScopeEvent.release :: tr => scopeDepth d tr

/-- A trace is balanced when, starting with nothing held, it never
releases more than it acquired and ends holding nothing: the operation
never returns to its caller while still holding the scope. -/
def balanced (tr : List ScopeEvent) : Prop := scopeDepth 0 tr = some 0

/-- Embeds `ZLocker<T>` (zLock.inline.hpp lines 147-156): the constructor
acquires the lock and the destructor releases it when the scope exits,
bracketing whatever the body emits. -/
def zLockerTrace (body : List ScopeEvent) : List ScopeEvent :=
  ScopeEvent.acquire :: body ++ [ScopeEvent.release]

theorem scopeDepth_nil (d : Nat) : scopeDepth d [] = some d := by
  cases d <;> rfl

theorem scopeDepth_acquire (d : Nat) (tr : List ScopeEvent) :
    scopeDepth d (ScopeEvent.acquire :: tr) = scopeDepth (d + 1) tr := by
  cases d <;> rfl

theorem scopeDepth_release_zero (tr : List ScopeEvent) :
    scopeDepth 0 (ScopeEvent.release :: tr) = none := rfl

theorem scopeDepth_release_succ (d : Nat) (tr : List ScopeEvent) :
    scopeDepth (d + 1) (ScopeEvent.release :: tr) = scopeDepth d tr := rfl

theorem scopeDepth_shift :
    ∀ (tr : List ScopeEvent) (d e k : Nat), scopeDepth d tr = some e →
      scopeDepth (d + k) tr = some (e + k) := by
  intro tr
  induction tr with
  | nil =>
    intro d e k hd
    rw [scopeDepth_nil] at hd
    have : d = e := Option.some.inj hd
    subst this
    rw [scopeDepth_nil]
  | cons ev tr ih =>
    intro d e k hd
    cases ev with
    | acquire =>
      rw [scopeDepth_acquire] at hd
      rw [scopeDepth_acquire]
      have := ih (d + 1) e k hd
      have hcomm : d + 1 + k = d + k + 1 := by omega
      rw [hcomm] at this
      exact this
    | release =>
      cases d with
      | zero =>
        rw [scopeDepth_release_zero] at hd
        exact Option.noConfusion hd
      | succ d' =>
        rw [scopeDepth_release_succ] at hd
        show scopeDepth (d' + 1 + k) (ScopeEvent.release :: tr) = some (e + k)
        have hcomm : d' + 1 + k = d' + k + 1 := by omega
        rw [hcomm, scopeDepth_release_succ]
        exact ih d' e k hd

theorem scopeDepth_append :
    ∀ (tr1 tr2 : List ScopeEvent) (d e : Nat), scopeDepth d tr1 = some e →
      scopeDepth d (tr1 ++ tr2) = scopeDepth e tr2 := by
  intro tr1
  induction tr1 with
  | nil =>
    intro tr2 d e hd
    rw [scopeDepth_nil] at hd
    have : d = e := Option.some.inj hd
    subst this
    rfl
  | cons ev tr1 ih =>
    intro tr2 d e hd
    cases ev with
    | acquire =>
      rw [scopeDepth_acquire] at hd
      show scopeDepth d (ScopeEvent.acquire :: (tr1 ++ tr2)) = scopeDepth e tr2
      rw [scopeDepth_acquire]
      exact ih tr2 (d + 1) e hd
    | release =>
      cases d with
      | zero =>
        rw [scopeDepth_release_zero] at hd
        exact Option.noConfusion hd
      | succ d' =>
        rw [scopeDepth_release_succ] at hd
        show scopeDepth (d' + 1) (ScopeEvent.release :: (tr1 ++ tr2)) =
          scopeDepth e tr2
        rw [scopeDepth_release_succ]
        exact ih tr2 d' e hd

/-- Embeds `ciKlass::is_subtype_of` instrumented with its scope events: the
assert failures and the identity short-circuit return before
`VM_ENTRY_MARK`; the wall-crossing path opens the scope and the mark's
destruction closes it before the return. -/
def CiEnv.is_subtype_of_traced (env : CiEnv) (a b : CiKlass) :
    Except CiError Bool × List ScopeEvent :=
  if a.loaded = false then (.error .PreconditionViolated, [])
  else if b.loaded = false then (.error .PreconditionViolated, [])
  else if a = b then (.ok true, [])
  else (.ok (env.h.ksub a.kid b.kid), [.acquire, .release])

/-- Embeds `ciKlass::is_subclass_of` instrumented likewise: `GUARDED_VM_ENTRY`
brackets the returning expression, asserts fail before entry. -/
def CiEnv.is_subclass_of_traced (env : CiEnv) (a b : CiKlass) :
    Except CiError Bool × List ScopeEvent :=
  if a.loaded = false then (.error .PreconditionViolated, [])
  else if b.loaded = false then (.error .PreconditionViolated, [])
  else (.ok (env.h.ksubclass a.kid b.kid), [.acquire, .release])

/-- Embeds `ciKlass::least_common_ancestor` instrumented likewise. -/
def CiEnv.least_common_ancestor_traced (env : CiEnv) (a b : CiKlass) :
    Except CiError CiKlass × List ScopeEvent :=
  if a.loaded = false then (.error .PreconditionViolated, [])
  else if b.loaded = false then (.error .PreconditionViolated, [])
  else if a = b then (.ok a, [])
  else
    (if env.h.klassLCA a.kid b.kid = b.kid then .ok b
     else if a.kid = env.h.klassLCA a.kid b.kid then .ok a
     else .ok (env.getKlass (env.h.klassLCA a.kid b.kid)),
     [.acquire, .release])

/-- C6: every acquisition of the heap-entry scope is released on every
exit path.  The `ZLocker` bracket preserves balance around any balanced
body, and each instrumented oracle operation's trace is balanced on all
of its paths — error exits, short-circuit exits and wall-crossing exits —
while computing the same result as the plain embedding. -/
theorem C6_scope_released_on_every_exit_path :
    (∀ body : List ScopeEvent, balanced body → balanced (zLockerTrace body)) ∧
    (∀ (env : CiEnv) (a b : CiKlass),
      balanced (env.is_subtype_of_traced a b).2 ∧
      (env.is_subtype_of_traced a b).1 = env.is_subtype_of a b ∧
      balanced (env.is_subclass_of_traced a b).2 ∧
      (env.is_subclass_of_traced a b).1 = env.is_subclass_of a b ∧
      balanced (env.least_common_ancestor_traced a b).2 ∧
      (env.least_common_ancestor_traced a b).1 =
        env.least_common_ancestor a b) := by
  have hnil : balanced [] := scopeDepth_nil 0
  constructor
  · intro body hb
    show scopeDepth 0 (ScopeEvent.acquire :: (body ++ [ScopeEvent.release])) = some 0
    rw [scopeDepth_acquire]
    have h1 : scopeDepth 1 body = some 1 := by
      have := scopeDepth_shift body 0 0 1 hb
      simpa using this
    rw [scopeDepth_append body _ 1 1 h1, scopeDepth_release_succ, scopeDepth_nil]
  · intro env a b
    refine ⟨?_, ?_, ?_, ?_, ?_, ?_⟩
    · unfold CiEnv.is_subtype_of_traced
      repeat' split
      all_goals exact hnil
    · unfold CiEnv.is_subtype_of_traced CiEnv.is_subtype_of
      repeat' split
      all_goals rfl
    · unfold CiEnv.is_subclass_of_traced
      repeat' split
      all_goals exact hnil
    · unfold CiEnv.is_subclass_of_traced CiEnv.is_subclass_of
      repeat' split
      all_goals rfl
    · unfold CiEnv.least_common_ancestor_traced
      repeat' split
      all_goals exact hnil
    · unfold CiEnv.least_common_ancestor_traced CiEnv.least_common_ancestor
      repeat' split
      all_goals rfl

end TypeOracle

namespace ZLocks

/-- State of a `ZReentrantLock` together with its underlying `ZLock`
pthread mutex (zLock.inline.hpp lines 54-87): whether the mutex is held,
the recorded owner thread, and the recursion count. -/
structure RLockState where
  mutexHeld : Bool
  owner : Option Nat
  count : Nat
deriving DecidableEq, Repr

/-- A failed HotSpot `assert` (debug-build contract violation). -/
inductive LockError where
  | assertFailed
deriving DecidableEq, Repr

/-- Embeds `ZReentrantLock::lock` (lines 59-69) called by thread `t`: when `t`
already owns the lock only the count is incremented and the mutex is not
touched; otherwise the thread acquires the underlying mutex first (`none`
models blocking while another thread holds it), records itself as owner,
and increments the count. -/
def rlock (t : Nat) (s : RLockState) : Option RLockState :=
  if s.owner = some t then some { s with count := s.count + 1 }
  else if s.mutexHeld then none
  else some { mutexHeld := true, owner := some t, count := s.count + 1 }

/-- Embeds `ZReentrantLock::unlock` (lines 71-81): asserts ownership and a
positive count, decrements, and exactly when the count reaches zero clears
the owner and then releases the underlying mutex. -/
def runlock (t : Nat) (s : RLockState) : Except LockError RLockState :=
  if s.owner ≠ some t then .error .assertFailed
  else if s.count = 0 then .error .assertFailed
  else if s.count - 1 = 0 then .ok { mutexHeld := false, owner := none, count := 0 }
  else .ok { s with count := s.count - 1 }

/-- Runs `n` successive `lock()` calls by thread `t`. -/
def rlockN (t : Nat) : Nat → RLockState → Option RLockState
  | 0, s => some s
  | n + 1, s => (rlock t s).bind (rlockN t n)

/-- Runs `n` successive `unlock()` calls by thread `t`. -/
def runlockN (t : Nat) : Nat → RLockState → Except LockError RLockState
  | 0, s => .ok s
  | n + 1, s => (runlock t s).bind (runlockN t n)

theorem rlockN_owned (t : Nat) :
    ∀ (m c : Nat), rlockN t m ⟨true, some t, c⟩ = some ⟨true, some t, c + m⟩ := by
  intro m
  induction m with
  | zero => intro c; rfl
  | succ m ih =>
    intro c
    show (rlock t ⟨true, some t, c⟩).bind (rlockN t m) = _
    unfold rlock
    rw [if_pos rfl]
    show rlockN t m ⟨true, some t, c + 1⟩ = _
    rw [ih (c + 1)]
    have : c + 1 + m = c + (m + 1) := by omega
    rw [this]

theorem runlock_owned_step (t n : Nat) (hn : 1 < n) :
    runlock t ⟨true, some t, n⟩ = .ok ⟨true, some t, n - 1⟩ := by
  unfold runlock
  rw [if_neg (by simp), if_neg (by simp; omega), if_neg (by simp; omega)]

theorem runlock_owned_last (t : Nat) :
    runlock t ⟨true, some t, 1⟩ = .ok ⟨false, none, 0⟩ := by
  unfold runlock
  rw [if_neg (by simp), if_neg (by simp), if_pos (by simp)]

theorem runlockN_below (t : Nat) :
    ∀ (k n : Nat), k < n →
      runlockN t k ⟨true, some t, n⟩ = .ok ⟨true, some t, n - k⟩ := by
  intro k
  induction k with
  | zero => intro n _; rfl
  | succ k ih =>
    intro n hk
    show (runlock t ⟨true, some t, n⟩).bind (runlockN t k) = _
    rw [runlock_owned_step t n (by omega)]
    show runlockN t k ⟨true, some t, n - 1⟩ = _
    rw [ih (n - 1) (by omega)]
    have : n - 1 - k = n - (k + 1) := by omega
    rw [this]

theorem runlockN_full (t : Nat) :
    ∀ (n : Nat), 0 < n → runlockN t n ⟨true, some t, n⟩ = .ok ⟨false, none, 0⟩ := by
  intro n
  induction n with
  | zero => intro h; exact absurd h (by omega)
  | succ n ih =>
    intro _
    show (runlock t ⟨true, some t, n + 1⟩).bind (runlockN t n) = _
    by_cases hn : n = 0
    · subst hn
      rw [runlock_owned_last t]
      rfl
    · rw [runlock_owned_step t (n + 1) (by omega)]
      show runlockN t n ⟨true, some t, n + 1 - 1⟩ = _
      have : n + 1 - 1 = n := by omega
      rw [this]
      exact ih (by omega)

/-- C9: the reentrant lock's invariant across `lock()`/`unlock()`: a
re-entrant `lock()` by the owner only increments the count and leaves the
mutex untouched; `unlock()` decrements and releases the mutex (after
clearing the owner) exactly when the count returns to zero; `n` nested
`lock()` calls from the free state keep the underlying mutex held through
the first `n - 1` `unlock()`s and release it at the `n`-th; and an
`unlock()` by a non-owner or with a zero count is an asserted contract
violation. -/
theorem C9_reentrant_lock_invariant :
    (∀ (t : Nat) (s : RLockState), s.owner = some t →
      rlock t s = some { s with count := s.count + 1 }) ∧
    (∀ (t : Nat) (s : RLockState), s.owner = some t → s.count = 1 →
      runlock t s = .ok ⟨false, none, 0⟩) ∧
    (∀ (t : Nat) (s : RLockState), s.owner = some t → 1 < s.count →
      runlock t s = .ok { s with count := s.count - 1 }) ∧
    (∀ (t : Nat) (s : RLockState), s.owner ≠ some t →
      runlock t s = .error .assertFailed) ∧
    (∀ (t : Nat) (s : RLockState), s.count = 0 →
      runlock t s = .error .assertFailed) ∧
    (∀ (t n : Nat), 0 < n →
      rlockN t n ⟨false, none, 0⟩ = some ⟨true, some t, n⟩) ∧
    (∀ (t n k : Nat), k < n →
      runlockN t k ⟨true, some t, n⟩ = .ok ⟨true, some t, n - k⟩) ∧
    (∀ (t n : Nat), 0 < n →
      runlockN t n ⟨true, some t, n⟩ = .ok ⟨false, none, 0⟩) := by
  refine ⟨?_, ?_, ?_, ?_, ?_, ?_, ?_, ?_⟩
  · intro t s hown
    unfold rlock
    rw [if_pos hown]
  · intro t s hown hcnt
    unfold runlock
    rw [if_neg (by rw [hown]; simp), if_neg (by rw [hcnt]; simp),
      if_pos (by rw [hcnt])]
  · intro t s hown hcnt
    unfold runlock
    rw [if_neg (by rw [hown]; simp), if_neg (by omega), if_neg (by omega)]
  · intro t s hown
    unfold runlock
    rw [if_pos hown]
  · intro t s hcnt
    unfold runlock
    by_cases hown : s.owner ≠ some t
    · rw [if_pos hown]
    · rw [if_neg hown, if_pos hcnt]
  · intro t n hn
    obtain ⟨m, hm⟩ : ∃ m, n = m + 1 := ⟨n - 1, by omega⟩
    subst hm
    show (rlock t ⟨false, none, 0⟩).bind (rlockN t m) = _
    have hstep : rlock t ⟨false, none, 0⟩ = some ⟨true, some t, 1⟩ := by
      unfold rlock
      rw [if_neg (by simp), if_neg (by simp)]
    rw [hstep]
    show rlockN t m ⟨true, some t, 1⟩ = _
    rw [rlockN_owned t m 1]
    have : 1 + m = m + 1 := by omega
    rw [this]
  · intro t n k hk
    exact runlockN_below t k n hk
  · intro t n hn
    exact runlockN_full t n hn

/-- POSIX `struct timespec`: seconds and nanoseconds as signed machine
integers. -/
structure Timespec where
  sec : Int
  nsec : Int
deriving DecidableEq, Repr

/-- Two's-complement wraparound of a signed 64-bit (`jlong`) value. -/
def wrap64 (x : Int) : Int :=
  (x + 9223372036854775808) % 18446744073709551616 - 9223372036854775808

/-- Embeds the `ZConditionLock::wait` deadline computation (zLock.inline.hpp lines
112-129) for `millis > 0`: `timeout = millis * (NANOUNITS / MILLIUNITS)`
as a `jlong`, split by C truncated division into whole seconds and
remaining nanoseconds, added to `now`, with one carry step when the
nanosecond field overflows `NANOUNITS`. -/
def zwaitDeadline (now : Timespec) (millis : Nat) : Timespec :=
  if 1000000000 ≤ now.nsec + (wrap64 ((millis : Int) * 1000000)).tmod 1000000000 then
    { sec := now.sec + (wrap64 ((millis : Int) * 1000000)).tdiv 1000000000 + 1,
      nsec := now.nsec + (wrap64 ((millis : Int) * 1000000)).tmod 1000000000
        - 1000000000 }
  else
    { sec := now.sec + (wrap64 ((millis : Int) * 1000000)).tdiv 1000000000,
      nsec := now.nsec + (wrap64 ((millis : Int) * 1000000)).tmod 1000000000 }

/-- Embeds the `ZConditionLock::wait` (lines 111-137) outcome shape: for positive
`millis` a timed wait against the computed absolute deadline, returning
whether `pthread_cond_timedwait` succeeded; for `millis == 0` an untimed
`pthread_cond_wait` with no deadline that returns true. -/
def zwait (now : Timespec) (millis : Nat) (timedOk : Bool) :
    Option Timespec × Bool :=
  if 0 < millis then (some (zwaitDeadline now millis), timedOk)
  else (none, true)

theorem wrap64_eq_of_fit (x : Int) (hlo : 0 ≤ x)
    (hhi : x < 9223372036854775808) : wrap64 x = x := by
  unfold wrap64
  rw [Int.emod_eq_of_lt (by omega) (by omega)]
  omega

/-- C10: with `millis > 0` whose nanosecond conversion fits a signed
64-bit integer and a normalized starting time, the computed absolute
deadline equals the starting time plus exactly `millis` milliseconds with
a normalized nanosecond field; with `millis == 0` the wait blocks with no
deadline and returns true. -/
theorem C10_wait_deadline_exact (now : Timespec) (millis : Nat)
    (timedOk : Bool) (hpos : 0 < millis)
    (hfit : (millis : Int) * 1000000 < 9223372036854775808)
    (hlo : 0 ≤ now.nsec) (hhi : now.nsec < 1000000000) :
    (zwaitDeadline now millis).sec * 1000000000 + (zwaitDeadline now millis).nsec
      = now.sec * 1000000000 + now.nsec + (millis : Int) * 1000000 ∧
    0 ≤ (zwaitDeadline now millis).nsec ∧
    (zwaitDeadline now millis).nsec < 1000000000 ∧
    zwait now millis timedOk = (some (zwaitDeadline now millis), timedOk) ∧
    zwait now 0 timedOk = (none, true) := by
  have hnn : (0 : Int) ≤ (millis : Int) * 1000000 := by positivity
  have hw : wrap64 ((millis : Int) * 1000000) = (millis : Int) * 1000000 :=
    wrap64_eq_of_fit _ hnn hfit
  have htd : ((millis : Int) * 1000000).tdiv 1000000000 =
      ((millis : Int) * 1000000) / 1000000000 :=
    Int.tdiv_eq_ediv hnn (by omega)
  have htm : ((millis : Int) * 1000000).tmod 1000000000 =
      ((millis : Int) * 1000000) % 1000000000 :=
    Int.tmod_eq_emod hnn (by omega)
  have hsplit : 1000000000 * (((millis : Int) * 1000000) / 1000000000) +
      ((millis : Int) * 1000000) % 1000000000 = (millis : Int) * 1000000 :=
    Int.ediv_add_emod _ _
  have hm0 : 0 ≤ ((millis : Int) * 1000000) % 1000000000 :=
    Int.emod_nonneg _ (by omega)
  have hmlt : ((millis : Int) * 1000000) % 1000000000 < 1000000000 :=
    Int.emod_lt_of_pos _ (by omega)
  refine ⟨?_, ?_, ?_, ?_, ?_⟩
  · unfold zwaitDeadline
    rw [hw, htd, htm]
    split
    · simp only []
      omega
    · simp only []
      omega
  · unfold zwaitDeadline
    rw [hw, htm]
    split
    · simp only []
      omega
    · simp only []
      omega
  · unfold zwaitDeadline
    rw [hw, htm]
    split
    · simp only []
      omega
    · simp only []
      omega
  · unfold zwait
    rw [if_pos hpos]
  · rfl

/-- C10 witness: one millisecond added to a time one nanosecond short of a
second carries into the seconds field; a zero-millisecond wait has no
deadline and returns true. -/
theorem C10_wait_deadline_exact_witness :
    zwaitDeadline ⟨5, 999999999⟩ 1 = ⟨6, 999999⟩ ∧
    zwait ⟨5, 999999999⟩ 0 true = (none, true) :=
  ⟨by decide,
   (C10_wait_deadline_exact ⟨5, 999999999⟩ 1 true (by decide) (by decide)
     (by decide) (by decide)).2.2.2.2⟩

end ZLocks
